import Mathlib

/-!
# Verification of the csv_to_anki core logic

Shallow embedding of the non-trivial logic of `convert_csv_to_anki.py` and
`create_qna_anki.py`: pipe-delimited record parsing, case-insensitive word
highlighting, `<strong>`-span usage extraction, and multiple-choice distractor
selection.  Strings are modelled as Lean `String` (logically a `List Char`);
Python string primitives (`strip`, `split`, `find`, `replace`, `str.lower`,
`re.search` for the one fixed pattern used) are re-implemented below on
`List Char` with Python's semantics.  Randomness (`random.sample`,
`random.shuffle`) is modelled by quantifying over the outcome: `sample` becomes
an explicit list of chosen indices (pairwise distinct and in range, see
`sampleOK`), and `shuffle` becomes quantification over all permutations of the
pre-shuffle option list.  A `ValueError` raised by `random.sample` when the
population is too small is modelled by returning `none`.
-/

/-- Python `str.strip()` (whitespace from both ends), on the character list.
Matches `line.strip()` / `field.strip()` in both scripts. -/
def pyStrip (s : List Char) : List Char :=
  (((s.dropWhile Char.isWhitespace).reverse).dropWhile Char.isWhitespace).reverse

/-- Fuel-driven worker for Python `str.split(sep)` (all occurrences,
non-overlapping, left to right).  The fuel is the length of the scanned list,
which bounds the number of steps because each step consumes at least one
character (the separators used in the scripts, `"|"` and `". "`, are
non-empty). -/
def pySplitAux (sep : List Char) : Nat → List Char → List (List Char)
  | _, [] => [[]]
  | 0, s => [s]
  | fuel+1, c :: rest =>
    if sep.isPrefixOf (c :: rest) then
      [] :: pySplitAux sep fuel ((c :: rest).drop sep.length)
    else
      match pySplitAux sep fuel rest with
      | [] => [[c]]
      | f :: fs => (c :: f) :: fs

/-- Python `s.split(sep)` for a non-empty separator. -/
def pySplit (s sep : List Char) : List (List Char) :=
  pySplitAux sep s.length s

/-- The candidate match positions of `pat` inside `hay`: every index `i`
(`0 ≤ i ≤ hay.length`) at which `pat` is a prefix of `hay.drop i`, in
increasing order.  For a non-empty `pat` these are exactly the substring
occurrences, mirroring repeated Python `str.find`. -/
def occIdx (hay pat : List Char) : List Nat :=
  (List.range (hay.length + 1)).filter (fun i => pat.isPrefixOf (hay.drop i))

/-- Python `hay.find(pat, start)`: index of the first occurrence of `pat` at
position `≥ start`, `none` standing for Python's `-1`. -/
def findFrom (hay pat : List Char) (start : Nat) : Option Nat :=
  ((occIdx hay pat).filter (fun i => decide (start ≤ i))).head?

/-- Fuel-driven worker for Python `str.replace` with a non-empty pattern:
replaces every non-overlapping occurrence, scanning left to right.  Each step
consumes at least one character of `s`, so `s.length` fuel is enough. -/
def pyReplaceAux (pat rep : List Char) : Nat → List Char → List Char
  | _, [] => []
  | 0, s => s
  | fuel+1, c :: rest =>
    if pat.isPrefixOf (c :: rest) then
      rep ++ pyReplaceAux pat rep fuel ((c :: rest).drop pat.length)
    else
      c :: pyReplaceAux pat rep fuel rest

/-- Python `s.replace(pat, rep)` (all occurrences).  For an empty pattern
Python inserts `rep` between all characters and at both ends. -/
def pyReplace (s pat rep : List Char) : List Char :=
  if pat = [] then rep ++ (s.map (fun c => c :: rep)).flatten
  else pyReplaceAux pat rep s.length s

/-- Python `str.lower()`, character-wise. -/
def lowerL (s : List Char) : List Char := s.map Char.toLower

/-- Python `s.split(sep, 1)` (at most one split, at the first occurrence). -/
def splitOnFirstL (s sep : List Char) : List (List Char) :=
  match findFrom s sep 0 with
  | none => [s]
  | some i => [s.take i, s.drop (i + sep.length)]

/-! ## Usage extraction (`create_qna_anki.extract_usage`, lines 10-22) -/

/-- The literal opening tag of the regex `r"<strong>(.*?)</strong>"`. -/
def openTag : List Char := "<strong>".data

/-- The literal closing tag of the regex `r"<strong>(.*?)</strong>"`. -/
def closeTag : List Char := "</strong>".data

/-- The blank placeholder `"_____"` substituted for the marked span. -/
def blank5 : List Char := "_____".data

/-- The lazy group `(.*?)</strong>` of the regex, matched at a fixed start:
take the fewest characters (none of them `'\n'`, since `.` does not match a
newline) until `"</strong>"` follows; `none` if that never happens. -/
def matchInner : List Char → Option (List Char)
  | [] => none
  | c :: rest =>
    if closeTag.isPrefixOf (c :: rest) then some []
    else if c = '\n' then none
    else (matchInner rest).map (fun t => c :: t)

/-- `re.search(r"<strong>(.*?)</strong>", s)`: try each start position left to
right; at the first position where `"<strong>"` matches and the lazy inner
group can be completed, return the inner group. -/
def searchStrong : List Char → Option (List Char)
  | [] => none
  | c :: rest =>
    if openTag.isPrefixOf (c :: rest) then
      match matchInner ((c :: rest).drop openTag.length) with
      | some inner => some inner
      | none => searchStrong rest
    else searchStrong rest

/-- `extract_usage` (create_qna_anki.py lines 10-22): find the first
`<strong>...)</strong>` span; if none, return `("", example)`; otherwise return
the inner text and the example with every occurrence of the exact substring
`"<strong>" + usage + "</strong>"` replaced by `"_____"`. -/
def extract_usage (ex : String) : String × String :=
  match searchStrong ex.data with
  | none => ("", ex)
  | some inner =>
    (⟨inner⟩, ⟨pyReplace ex.data (openTag ++ inner ++ closeTag) blank5⟩)

/-- The answer view's restore step (create_qna_anki.py line 155):
`example.replace("_____", f"<strong>{usage}</strong>")`. -/
def restore_usage (ex usage : String) : String :=
  ⟨pyReplace ex.data blank5 (openTag ++ usage.data ++ closeTag)⟩

/-! ## Quiz-pipeline reader (`create_qna_anki.read_magoosh_words`, lines 25-60) -/

/-- A record of the quiz pipeline: word, part of speech, meaning, example with
the usage blanked out, and the extracted usage. -/
structure QnaRecord where
  word : String
  form : String
  meaning : String
  «example» : String
  usage : String
deriving DecidableEq, Inhabited

/-- One iteration of the `read_magoosh_words` loop: strip the line, split on
`"|"`; unless there are exactly 3 parts, warn and skip (`none`); split the
definition on the first `". "`; unless that gives 2 parts, warn and skip;
otherwise build the record using `extract_usage`. -/
def read_magoosh_line (line : String) : Option QnaRecord :=
  match pySplit (pyStrip line.data) "|".data with
  | [w, d, ex] =>
    match splitOnFirstL d ". ".data with
    | [form, meaning] =>
      some { word := ⟨w⟩, form := ⟨form⟩, meaning := ⟨meaning⟩,
             «example» := (extract_usage ⟨ex⟩).2, usage := (extract_usage ⟨ex⟩).1 }
    | _ => none
  | _ => none

/-- `read_magoosh_words` on the file's lines: malformed lines produce no
record and processing continues. -/
def read_magoosh_words (lines : List String) : List QnaRecord :=
  lines.filterMap read_magoosh_line

/-! ## Distractor selection (`create_qna_anki.create_multiple_choice`, lines 63-91) -/

/-- Line 70-72: all words with the same form and a different word. -/
def same_form_pool (word : QnaRecord) (all_words : List QnaRecord) : List QnaRecord :=
  all_words.filter (fun w => w.word != word.word && w.form == word.form)

/-- Line 80: all other words regardless of form (the relaxed pool). -/
def fallback_pool (word : QnaRecord) (all_words : List QnaRecord) : List QnaRecord :=
  all_words.filter (fun w => w.word != word.word)

/-- Line 75: the condition under which the warning is printed and the pool is
relaxed. -/
def needsFallback (word : QnaRecord) (all_words : List QnaRecord) : Bool :=
  decide ((same_form_pool word all_words).length < 3)

/-- The pool `random.sample` draws from after the optional relaxation. -/
def selection_pool (word : QnaRecord) (all_words : List QnaRecord) : List QnaRecord :=
  if needsFallback word all_words then fallback_pool word all_words
  else same_form_pool word all_words

/-- A valid outcome of `random.sample(pool, 3)`, as the list of chosen
positions: 3 pairwise-distinct indices into the pool. -/
def sampleOK (ids : List Nat) (n : Nat) : Prop :=
  ids.length = 3 ∧ ids.Nodup ∧ ∀ i ∈ ids, i < n

instance (ids : List Nat) (n : Nat) : Decidable (sampleOK ids n) := by
  unfold sampleOK; infer_instance

/-- `create_multiple_choice` (lines 63-91) with the randomness made explicit:
`ids` is the outcome of `random.sample` (see `sampleOK`); `random.sample`
raises `ValueError` when the pool has fewer than 3 members, modelled as
`none`.  The final `random.shuffle` is modelled by quantifying over all
permutations of the returned list in the theorems below. -/
def create_multiple_choice (word : QnaRecord) (all_words : List QnaRecord)
    (ids : List Nat) : Option (List QnaRecord) :=
  let pool := selection_pool word all_words
  if pool.length < 3 then none
  else some (ids.map (fun i => pool.getD i default) ++ [word])

/-! ## Vocab-pipeline parser (`convert_csv_to_anki.convert_csv_to_anki`, lines 45-80) -/

/-- A record of the vocab pipeline. -/
structure VocabRecord where
  word : String
  meaning : String
  examples : List String
deriving DecidableEq, Inhabited

/-- Line 58: the fields of one line — strip the line, split on `"|"`, strip
every field. -/
def vocab_fields (line : String) : List String :=
  (pySplit (pyStrip line.data) "|".data).map (fun f => (⟨pyStrip f⟩ : String))

/-- Lines 56-66: skip the line when every field is empty, otherwise keep its
fields as one row. -/
def parse_vocab_line (line : String) : Option (List String) :=
  if (vocab_fields line).all (fun f => f == "") then none
  else some (vocab_fields line)

/-- The running `max_fields` maximum of line 65. -/
def maxFields (rows : List (List String)) : Nat :=
  rows.foldl (fun m r => max m r.length) 0

/-- One row of the padded DataFrame turned into a record: pad with empty
strings to `m` fields (the `fillna('')` of line 72), field 0 is the word,
field 1 the meaning, the rest the examples. -/
def vocabRecordOfRow (m : Nat) (row : List String) : VocabRecord :=
  let p := row ++ List.replicate (m - row.length) ""
  { word := p.getD 0 "", meaning := p.getD 1 "", examples := p.drop 2 }

/-- The record-producing part of `convert_csv_to_anki` (lines 45-80): `none`
models the warn-and-return-None paths (empty input, and the
`df.columns` length-mismatch error when the maximum field count is below 2,
which is caught at line 84). -/
def convert_csv_to_anki (lines : List String) : Option (List VocabRecord) :=
  let rows := lines.filterMap parse_vocab_line
  if rows.isEmpty then none
  else if maxFields rows < 2 then none
  else some (rows.map (vocabRecordOfRow (maxFields rows)))

/-! ## Example highlighter (`convert_csv_to_anki.convert_csv_to_anki`, lines 177-195) -/

/-- The bold markers used by the highlighter. -/
def boldOpen : List Char := "<b>".data

/-- Closing bold marker. -/
def boldClose : List Char := "</b>".data

/-- The `while True` loop of lines 183-193: find the next case-insensitive
occurrence of the word starting at `start`; if none, stop; otherwise take the
actual text at that position of the *original* example (preserving its case)
and wrap every occurrence of that exact text in the accumulated string in
`<b>...</b>` (a whole-string replace, not an index-based one); continue the
search one position after the found index.  The search index advances at
every step and is bounded by the example length, so `length + 2` fuel covers
every iteration the Python loop can perform. -/
def highlightAux (word ex exLower wLower : List Char) :
    Nat → Nat → List Char → List Char
  | 0, _, fm => fm
  | fuel+1, start, fm =>
    match findFrom exLower wLower start with
    | none => fm
    | some index =>
      highlightAux word ex exLower wLower fuel (index + 1)
        (pyReplace fm ((ex.drop index).take word.length)
          (boldOpen ++ (ex.drop index).take word.length ++ boldClose))

/-- The highlighter on character lists. -/
def highlightWordL (word ex : List Char) : List Char :=
  highlightAux word ex (lowerL ex) (lowerL word) (ex.length + 2) 0 ex

/-- The highlighter of lines 177-193: wrap the found occurrences of `word`
inside `ex` in `<b>...</b>`. -/
def highlight_word (word ex : String) : String :=
  ⟨highlightWordL word.data ex.data⟩

/-! ## Basic helper lemmas -/

theorem isPrefixOf_iff {l₁ l₂ : List Char} :
    l₁.isPrefixOf l₂ = true ↔ ∃ t, l₂ = l₁ ++ t := by
  rw [List.isPrefixOf_iff_prefix]
  constructor
  · rintro ⟨t, rfl⟩; exact ⟨t, rfl⟩
  · rintro ⟨t, rfl⟩; exact ⟨t, rfl⟩

theorem take_len (l₁ l₂ : List α) : (l₁ ++ l₂).take l₁.length = l₁ := by
  induction l₁ with
  | nil => rfl
  | cons c t ih => simp [ih]

theorem drop_len (l₁ l₂ : List α) : (l₁ ++ l₂).drop l₁.length = l₂ := by
  induction l₁ with
  | nil => rfl
  | cons c t ih => simp [ih]

theorem drop_append_len (l₁ l₂ : List α) (n : Nat) :
    (l₁ ++ l₂).drop (l₁.length + n) = l₂.drop n := by
  induction l₁ with
  | nil => simp
  | cons c t ih => simp [Nat.succ_add, ih]

theorem mem_occIdx {hay pat : List Char} {i : Nat} :
    i ∈ occIdx hay pat ↔ i ≤ hay.length ∧ pat.isPrefixOf (hay.drop i) = true := by
  simp [occIdx, List.mem_filter, List.mem_range, Nat.lt_succ_iff]

theorem not_isPrefixOf_of_occIdx {hay pat : List Char} {i j : Nat}
    (hpat : pat ≠ []) (hocc : occIdx hay pat = [i]) (hij : j ≠ i) :
    pat.isPrefixOf (hay.drop j) = false := by
  by_contra h
  rw [Bool.not_eq_false] at h
  have hle : j ≤ hay.length := by
    by_contra hgt
    have hnil : hay.drop j = [] := List.drop_eq_nil_of_le (by omega)
    rw [hnil] at h
    cases pat with
    | nil => exact hpat rfl
    | cons c t => simp [List.isPrefixOf] at h
  have : j ∈ occIdx hay pat := mem_occIdx.mpr ⟨hle, h⟩
  rw [hocc] at this
  simp at this
  exact hij this

/-! ## Lemmas about `pyReplace` -/

theorem pyReplaceAux_no_occ {pat rep : List Char} (_hpat : pat ≠ []) :
    ∀ fuel s, s.length ≤ fuel →
      (∀ j, pat.isPrefixOf (s.drop j) = false) →
      pyReplaceAux pat rep fuel s = s := by
  intro fuel
  induction fuel with
  | zero =>
    intro s hlen _
    have : s = [] := List.eq_nil_of_length_eq_zero (by omega)
    subst this; rfl
  | succ fuel ih =>
    intro s hlen hno
    cases s with
    | nil => rfl
    | cons c rest =>
      have h0 : pat.isPrefixOf (c :: rest) = false := by
        have := hno 0
        simpa using this
      simp only [pyReplaceAux, h0, if_false, Bool.false_eq_true]
      congr 1
      exact ih rest (by simpa using Nat.le_of_succ_le_succ hlen)
        (fun j => by simpa using hno (j + 1))

theorem pyReplaceAux_unique_occ {pat rep : List Char} (hpat : pat ≠ []) :
    ∀ fuel s i, s.length ≤ fuel →
      pat.isPrefixOf (s.drop i) = true →
      (∀ j, j ≠ i → pat.isPrefixOf (s.drop j) = false) →
      pyReplaceAux pat rep fuel s = s.take i ++ rep ++ s.drop (i + pat.length) := by
  intro fuel
  induction fuel with
  | zero =>
    intro s i hlen hi _
    have hs : s = [] := List.eq_nil_of_length_eq_zero (by omega)
    subst hs
    rw [List.drop_nil] at hi
    cases pat with
    | nil => exact absurd rfl hpat
    | cons c t => simp [List.isPrefixOf] at hi
  | succ fuel ih =>
    intro s i hlen hi huniq
    cases s with
    | nil =>
      rw [List.drop_nil] at hi
      cases pat with
      | nil => exact absurd rfl hpat
      | cons c t => simp [List.isPrefixOf] at hi
    | cons c rest =>
      cases i with
      | zero =>
        rw [List.drop_zero] at hi
        simp only [pyReplaceAux, hi, if_true]
        have hplen : 1 ≤ pat.length := by
          cases pat with
          | nil => exact absurd rfl hpat
          | cons a t => simp
        have hlen' : rest.length + 1 ≤ fuel + 1 := by simpa using hlen
        rw [pyReplaceAux_no_occ hpat fuel ((c :: rest).drop pat.length)
          (by simp only [List.length_drop, List.length_cons]; omega)
          (fun j => by
            rw [List.drop_drop]
            exact huniq (pat.length + j) (by omega))]
        simp
      | succ i' =>
        have h0 : pat.isPrefixOf (c :: rest) = false := by
          have := huniq 0 (by omega)
          simpa using this
        simp only [pyReplaceAux, h0, if_false, Bool.false_eq_true]
        rw [ih rest i' (by simpa using Nat.le_of_succ_le_succ hlen)
          (by simpa using hi)
          (fun j hj => by
            have := huniq (j + 1) (by omega)
            simpa using this)]
        simp [List.take_succ_cons, List.drop_succ_cons, Nat.succ_add]

theorem pyReplace_unique_occ {s pat rep : List Char} {i : Nat} (hpat : pat ≠ [])
    (hi : pat.isPrefixOf (s.drop i) = true)
    (huniq : ∀ j, j ≠ i → pat.isPrefixOf (s.drop j) = false) :
    pyReplace s pat rep = s.take i ++ rep ++ s.drop (i + pat.length) := by
  unfold pyReplace
  rw [if_neg hpat]
  exact pyReplaceAux_unique_occ hpat s.length s i le_rfl hi huniq

/-- Replace when the pattern occurs exactly once, by position: the occurrence
is at `a.length` in `a ++ pat ++ b` and nowhere else. -/
theorem pyReplace_decomp {a pat b rep : List Char} (hpat : pat ≠ [])
    (huniq : ∀ j, j ≠ a.length → pat.isPrefixOf ((a ++ pat ++ b).drop j) = false) :
    pyReplace (a ++ pat ++ b) pat rep = a ++ rep ++ b := by
  have hi : pat.isPrefixOf ((a ++ pat ++ b).drop a.length) = true := by
    rw [List.append_assoc, drop_len]
    exact isPrefixOf_iff.mpr ⟨b, rfl⟩
  rw [pyReplace_unique_occ hpat hi huniq]
  congr 1
  · congr 1
    rw [List.append_assoc]
    exact take_len a (pat ++ b)
  · have : (a ++ pat ++ b) = (a ++ pat) ++ b := by simp
    rw [this]
    have hlen : a.length + pat.length = (a ++ pat).length := by simp
    rw [hlen, drop_len]

/-! ## Lemmas about the regex search -/

theorem matchInner_close {l : List Char} (h : closeTag.isPrefixOf l = true) :
    matchInner l = some [] := by
  cases l with
  | nil => simp [closeTag, List.isPrefixOf] at h
  | cons c rest => simp only [matchInner, h, if_true]

theorem matchInner_eq_some {b : List Char} : ∀ {u : List Char},
    '\n' ∉ u →
    (∀ k, k < u.length → closeTag.isPrefixOf ((u ++ (closeTag ++ b)).drop k) = false) →
    matchInner (u ++ (closeTag ++ b)) = some u := by
  intro u
  induction u with
  | nil =>
    intro _ _
    exact matchInner_close (isPrefixOf_iff.mpr ⟨b, by simp⟩)
  | cons c u' ih =>
    intro hn hc
    have h0 : closeTag.isPrefixOf (c :: (u' ++ (closeTag ++ b))) = false := by
      have := hc 0 (by simp)
      simpa using this
    have hcne : ¬ c = '\n' := by
      intro hc'
      exact hn (by simp [hc'])
    have hrest := ih (fun hmem => hn (by simp [hmem]))
      (fun k hk => by
        have := hc (k + 1) (by simpa using Nat.succ_lt_succ hk)
        simpa using this)
    show matchInner (c :: (u' ++ (closeTag ++ b))) = some (c :: u')
    simp only [matchInner, h0, Bool.false_eq_true, if_false, hcne, hrest,
      Option.map_some']

theorem matchInner_some : ∀ {l u : List Char}, matchInner l = some u →
    ∃ b, l = u ++ (closeTag ++ b) ∧ '\n' ∉ u := by
  intro l
  induction l with
  | nil => intro u h; simp [matchInner] at h
  | cons c rest ih =>
    intro u h
    simp only [matchInner] at h
    split at h
    · rename_i hclose
      have hu : u = [] := by
        have := Option.some.inj h
        exact this.symm
      subst hu
      obtain ⟨t, ht⟩ := isPrefixOf_iff.mp hclose
      exact ⟨t, by simpa using ht, by simp⟩
    · split at h
      · exact absurd h (by simp)
      · rename_i hclose hnl
        obtain ⟨u', hmi, hfu⟩ := Option.map_eq_some'.mp h
        subst hfu
        obtain ⟨b, rfl, hn⟩ := ih hmi
        refine ⟨b, by simp, ?_⟩
        intro hmem
        rcases List.mem_cons.mp hmem with h1 | h2
        · exact hnl h1.symm
        · exact hn h2

theorem searchStrong_some : ∀ {l u : List Char}, searchStrong l = some u →
    ∃ a b, l = a ++ (openTag ++ (u ++ (closeTag ++ b))) ∧ '\n' ∉ u := by
  intro l
  induction l with
  | nil => intro u h; simp [searchStrong] at h
  | cons c rest ih =>
    intro u h
    simp only [searchStrong] at h
    split at h
    · rename_i hopen
      split at h
      · rename_i inner hmi
        have hu : inner = u := Option.some.inj h
        subst hu
        obtain ⟨t, ht⟩ := isPrefixOf_iff.mp hopen
        have hdrop : (c :: rest).drop openTag.length = t := by
          rw [ht]; exact drop_len _ _
        rw [hdrop] at hmi
        obtain ⟨b, rfl, hn⟩ := matchInner_some hmi
        exact ⟨[], b, by simpa using ht, hn⟩
      · obtain ⟨a, b, rfl, hn⟩ := ih h
        exact ⟨c :: a, b, by simp, hn⟩
    · obtain ⟨a, b, rfl, hn⟩ := ih h
      exact ⟨c :: a, b, by simp, hn⟩

theorem searchStrong_append : ∀ {a s : List Char},
    (∀ j, j < a.length → openTag.isPrefixOf ((a ++ s).drop j) = false) →
    searchStrong (a ++ s) = searchStrong s := by
  intro a
  induction a with
  | nil => intro s _; rfl
  | cons c a' ih =>
    intro s h
    have h0 : openTag.isPrefixOf (c :: (a' ++ s)) = false := by
      have := h 0 (by simp)
      simpa using this
    show searchStrong (c :: (a' ++ s)) = searchStrong s
    simp only [searchStrong, h0, Bool.false_eq_true, if_false]
    exact ih (fun j hj => by
      have := h (j + 1) (by simpa using Nat.succ_lt_succ hj)
      simpa using this)

theorem searchStrong_open {rest u : List Char} (hmi : matchInner rest = some u) :
    searchStrong (openTag ++ rest) = some u := by
  have e : openTag ++ rest = '<' :: ("strong>".data ++ rest) := rfl
  have hpre : openTag.isPrefixOf ('<' :: ("strong>".data ++ rest)) = true := by
    rw [← e]; exact isPrefixOf_iff.mpr ⟨rest, rfl⟩
  have hd : ('<' :: ("strong>".data ++ rest)).drop openTag.length = rest := by
    rw [← e]; exact drop_len openTag rest
  rw [e]
  simp only [searchStrong, hpre, if_true, hd, hmi]

/-! ## The behaviour of `extract_usage` on a marked span -/

theorem openTag_ne_nil : openTag ≠ [] := by decide

theorem closeTag_ne_nil : closeTag ≠ [] := by decide

theorem blank5_ne_nil : blank5 ≠ [] := by decide

/-- Shared helper: on an example decomposing as
`a ++ "<strong>" ++ u ++ "</strong>" ++ b` where no open tag occurs before
`a.length`, `u` is newline-free and contains no earlier close tag, and the
full marked substring occurs only at `a.length`, `extract_usage` extracts `u`
and blanks exactly that span. -/
theorem extract_usage_span {ex : String} {a u b : List Char}
    (hdec : ex.data = a ++ openTag ++ u ++ closeTag ++ b)
    (hopen : ∀ j, j < a.length → openTag.isPrefixOf (ex.data.drop j) = false)
    (hn : '\n' ∉ u)
    (hclose : ∀ k, k < u.length →
      closeTag.isPrefixOf (ex.data.drop (a.length + openTag.length + k)) = false)
    (huniq : ∀ j, j ≠ a.length →
      (openTag ++ u ++ closeTag).isPrefixOf (ex.data.drop j) = false) :
    extract_usage ex = (⟨u⟩, ⟨a ++ blank5 ++ b⟩) := by
  have hr : ex.data = a ++ (openTag ++ (u ++ (closeTag ++ b))) := by
    rw [hdec]; simp [List.append_assoc]
  have hc' : ∀ k, k < u.length →
      closeTag.isPrefixOf ((u ++ (closeTag ++ b)).drop k) = false := by
    intro k hk
    have e : ex.data.drop (a.length + openTag.length + k)
        = (u ++ (closeTag ++ b)).drop k := by
      rw [hr]
      have e2 : a ++ (openTag ++ (u ++ (closeTag ++ b)))
          = (a ++ openTag) ++ (u ++ (closeTag ++ b)) := by simp
      rw [e2]
      have e3 : a.length + openTag.length + k = (a ++ openTag).length + k := by
        simp
      rw [e3, drop_append_len]
    rw [← e]
    exact hclose k hk
  have hsearch : searchStrong ex.data = some u := by
    rw [hr]
    rw [searchStrong_append (fun j hj => by rw [← hr]; exact hopen j hj)]
    exact searchStrong_open (matchInner_eq_some hn hc')
  have hPd : ex.data = a ++ (openTag ++ u ++ closeTag) ++ b := by
    rw [hdec]; simp [List.append_assoc]
  have hrep : pyReplace ex.data (openTag ++ u ++ closeTag) blank5
      = a ++ blank5 ++ b := by
    rw [hPd]
    exact pyReplace_decomp (by simp [openTag])
      (fun j hj => by rw [← hPd]; exact huniq j hj)
  unfold extract_usage
  rw [hsearch]
  show ((⟨u⟩ : String), (⟨pyReplace ex.data (openTag ++ u ++ closeTag) blank5⟩ : String))
    = ((⟨u⟩ : String), (⟨a ++ blank5 ++ b⟩ : String))
  rw [hrep]

/-- The occurrence-count form of "exactly one marked span": the open tag
occurs exactly once, at `a.length`, and the close tag occurs exactly once, at
the end of the span.  These yield the positional side conditions of
`extract_usage_span`. -/
theorem span_cond_of_occIdx {ex : String} {a u b : List Char}
    (_hdec : ex.data = a ++ openTag ++ u ++ closeTag ++ b)
    (ho : occIdx ex.data openTag = [a.length])
    (hc : occIdx ex.data closeTag = [a.length + openTag.length + u.length]) :
    (∀ j, j < a.length → openTag.isPrefixOf (ex.data.drop j) = false) ∧
    (∀ k, k < u.length →
      closeTag.isPrefixOf (ex.data.drop (a.length + openTag.length + k)) = false) ∧
    (∀ j, j ≠ a.length →
      (openTag ++ u ++ closeTag).isPrefixOf (ex.data.drop j) = false) := by
  refine ⟨?_, ?_, ?_⟩
  · intro j hj
    exact not_isPrefixOf_of_occIdx openTag_ne_nil ho (by omega)
  · intro k hk
    exact not_isPrefixOf_of_occIdx closeTag_ne_nil hc (by omega)
  · intro j hj
    by_contra h
    rw [Bool.not_eq_false] at h
    obtain ⟨t, ht⟩ := isPrefixOf_iff.mp h
    have hop : openTag.isPrefixOf (ex.data.drop j) = true := by
      refine isPrefixOf_iff.mpr ⟨u ++ closeTag ++ t, ?_⟩
      rw [ht]; simp [List.append_assoc]
    have := not_isPrefixOf_of_occIdx openTag_ne_nil ho hj
    rw [this] at hop
    exact Bool.false_ne_true hop

theorem extract_usage_no_span {ex : String}
    (h : ¬ ∃ a u b, ex.data = a ++ openTag ++ u ++ closeTag ++ b ∧ '\n' ∉ u) :
    extract_usage ex = ("", ex) := by
  cases hs : searchStrong ex.data with
  | none => unfold extract_usage; rw [hs]
  | some u =>
    obtain ⟨a, b, hd, hn⟩ := searchStrong_some hs
    exact absurd ⟨a, u, b, by rw [hd]; simp [List.append_assoc], hn⟩ h

/-- **C5.**  For an example containing exactly one `<strong>`-marked span
(the open tag occurring exactly once, at the start of the span, and the close
tag exactly once, at its end, with a newline-free inner text — the only spans
the pipeline's line-based inputs can carry, since `.` in the regex does not
match a newline), `extract_usage` returns the inner text and the example with
the marked substring replaced by `"_____"`; for an example containing no
marked span it returns an empty usage and the example unchanged, with no
error; and on `"The cat <strong>sat</strong> down."` it returns `"sat"` and
`"The cat _____ down."`. -/
theorem extract_usage_spec :
    (∀ (ex : String) (a u b : List Char),
        ex.data = a ++ openTag ++ u ++ closeTag ++ b →
        occIdx ex.data openTag = [a.length] →
        occIdx ex.data closeTag = [a.length + openTag.length + u.length] →
        '\n' ∉ u →
        extract_usage ex = (⟨u⟩, ⟨a ++ blank5 ++ b⟩))
    ∧ (∀ ex : String,
        (¬ ∃ a u b, ex.data = a ++ openTag ++ u ++ closeTag ++ b ∧ '\n' ∉ u) →
        extract_usage ex = ("", ex))
    ∧ extract_usage "The cat <strong>sat</strong> down."
        = ("sat", "The cat _____ down.") := by
  refine ⟨?_, ?_, by decide⟩
  · intro ex a u b hdec ho hc hn
    obtain ⟨h1, h2, h3⟩ := span_cond_of_occIdx hdec ho hc
    exact extract_usage_span hdec h1 hn h2 h3
  · intro ex h
    exact extract_usage_no_span h

theorem extract_usage_spec_witness :
    extract_usage "The cat <strong>sat</strong> down."
      = (⟨"sat".data⟩, ⟨"The cat ".data ++ blank5 ++ " down.".data⟩) :=
  extract_usage_spec.1 "The cat <strong>sat</strong> down."
    "The cat ".data "sat".data " down.".data
    (by decide) (by decide) (by decide) (by decide)

/-- **C6 (amended).**  Round trip of blanking and restoring: if the example
contains exactly one marked span and the placeholder `"_____"` occurs in the
blanked example only as the single inserted blank, then restoring (the answer
view's `replace("_____", "<strong>" + usage + "</strong>")`) recovers the
original example.  (The claim's original hypothesis — the placeholder merely
not occurring in the source example — is not enough: underscores adjacent to
the span can merge with the inserted blank, see the counterexample.) -/
theorem restore_usage_round_trip :
    ∀ (ex : String) (a u b : List Char),
      ex.data = a ++ openTag ++ u ++ closeTag ++ b →
      occIdx ex.data openTag = [a.length] →
      occIdx ex.data closeTag = [a.length + openTag.length + u.length] →
      '\n' ∉ u →
      occIdx (a ++ blank5 ++ b) blank5 = [a.length] →
      restore_usage (extract_usage ex).2 (extract_usage ex).1 = ex := by
  intro ex a u b hdec ho hc hn hb
  obtain ⟨h1, h2, h3⟩ := span_cond_of_occIdx hdec ho hc
  rw [extract_usage_span hdec h1 hn h2 h3]
  unfold restore_usage
  show (⟨pyReplace (a ++ blank5 ++ b) blank5 (openTag ++ u ++ closeTag)⟩ : String) = ex
  rw [pyReplace_decomp blank5_ne_nil
    (fun j hj => not_isPrefixOf_of_occIdx blank5_ne_nil hb hj)]
  show (⟨a ++ (openTag ++ u ++ closeTag) ++ b⟩ : String) = (⟨ex.data⟩ : String)
  rw [hdec]
  congr 1
  simp [List.append_assoc]

/-- **C6, counterexample to the claim as stated.**  The example
`"x____<strong>u</strong>b"` contains exactly one marked span and no
occurrence of the literal `"_____"` (it has only four consecutive
underscores), yet blanking produces `"x_________b"`, whose first `"_____"`
occurrence starts inside the original underscores, so restoring yields
`"x<strong>u</strong>____b"`, not the original example. -/
theorem restore_usage_round_trip_cex :
    ("x____<strong>u</strong>b" : String).data
        = "x____".data ++ openTag ++ "u".data ++ closeTag ++ "b".data
    ∧ occIdx ("x____<strong>u</strong>b" : String).data openTag = ["x____".data.length]
    ∧ occIdx ("x____<strong>u</strong>b" : String).data closeTag
        = ["x____".data.length + openTag.length + "u".data.length]
    ∧ ('\n' ∉ "u".data)
    ∧ occIdx ("x____<strong>u</strong>b" : String).data blank5 = []
    ∧ restore_usage (extract_usage "x____<strong>u</strong>b").2
        (extract_usage "x____<strong>u</strong>b").1
        = "x<strong>u</strong>____b"
    ∧ ("x<strong>u</strong>____b" : String) ≠ "x____<strong>u</strong>b" := by
  decide

theorem restore_usage_round_trip_witness :
    restore_usage (extract_usage "ab <strong>xy</strong> cd").2
      (extract_usage "ab <strong>xy</strong> cd").1
      = "ab <strong>xy</strong> cd" :=
  restore_usage_round_trip "ab <strong>xy</strong> cd"
    "ab ".data "xy".data " cd".data
    (by decide) (by decide) (by decide) (by decide) (by decide)

/-- **C10.**  On an example containing two (or more) marked spans,
`extract_usage` returns the inner text of the leftmost span only — the lazy
`(.*?)` making it the shortest at that position (no earlier close tag inside
it) — and blanks every occurrence of the exact substring
`"<strong>" + usage + "</strong>"`; when the marked substring occurs only
once, the later, differently-marked span is left intact.  The two concrete
cases show a distinct second span surviving and an identical second span
being blanked as well. -/
theorem extract_usage_multi_span :
    (∀ (ex : String) (a u c v d : List Char),
        ex.data = a ++ openTag ++ u ++ closeTag ++ c
          ++ openTag ++ v ++ closeTag ++ d →
        (∀ j, j < a.length → openTag.isPrefixOf (ex.data.drop j) = false) →
        '\n' ∉ u →
        (∀ k, k < u.length →
          closeTag.isPrefixOf (ex.data.drop (a.length + openTag.length + k)) = false) →
        occIdx ex.data (openTag ++ u ++ closeTag) = [a.length] →
        extract_usage ex
          = (⟨u⟩, ⟨a ++ blank5 ++ (c ++ openTag ++ v ++ closeTag ++ d)⟩))
    ∧ extract_usage "<strong>a</strong> and <strong>bb</strong>"
        = ("a", "_____ and <strong>bb</strong>")
    ∧ extract_usage "<strong>a</strong> <strong>a</strong>" = ("a", "_____ _____") := by
  refine ⟨?_, by decide, by decide⟩
  intro ex a u c v d hdec hopen hn hclose huniq
  have hdec' : ex.data = a ++ openTag ++ u ++ closeTag
      ++ (c ++ openTag ++ v ++ closeTag ++ d) := by
    rw [hdec]; simp [List.append_assoc]
  exact extract_usage_span hdec' hopen hn hclose
    (fun j hj => not_isPrefixOf_of_occIdx (by simp [openTag]) huniq hj)

theorem extract_usage_multi_span_witness :
    extract_usage "<strong>a</strong> and <strong>bb</strong>"
      = (⟨"a".data⟩, ⟨([] : List Char) ++ blank5
          ++ (" and ".data ++ openTag ++ "bb".data ++ closeTag ++ [])⟩) :=
  extract_usage_multi_span.1 "<strong>a</strong> and <strong>bb</strong>"
    [] "a".data " and ".data "bb".data []
    (by decide) (by decide) (by decide) (by decide) (by decide)

/-! ## The highlighter on a unique case-insensitive occurrence -/

theorem isPrefixOf_map (f : Char → Char) {l₁ l₂ : List Char}
    (h : l₁.isPrefixOf l₂ = true) : (l₁.map f).isPrefixOf (l₂.map f) = true := by
  obtain ⟨t, rfl⟩ := isPrefixOf_iff.mp h
  exact isPrefixOf_iff.mpr ⟨t.map f, by simp⟩

theorem lowerL_drop (s : List Char) (n : Nat) :
    lowerL (s.drop n) = (lowerL s).drop n := by
  simp [lowerL]

theorem lowerL_take (s : List Char) (n : Nat) :
    lowerL (s.take n) = (lowerL s).take n := by
  simp [lowerL]

theorem lowerL_length (s : List Char) : (lowerL s).length = s.length := by
  simp [lowerL]

theorem lowerL_isPrefixOf {l₁ l₂ : List Char} (h : l₁.isPrefixOf l₂ = true) :
    (lowerL l₁).isPrefixOf (lowerL l₂) = true :=
  isPrefixOf_map Char.toLower h

theorem highlightWordL_single {word ex : List Char} {i : Nat}
    (hw : word ≠ [])
    (hocc : occIdx (lowerL ex) (lowerL word) = [i]) :
    highlightWordL word ex
      = ex.take i ++ boldOpen ++ (ex.drop i).take word.length ++ boldClose
        ++ ex.drop (i + word.length) := by
  have wlne : lowerL word ≠ [] := by
    simpa [lowerL] using hw
  have hi_mem : i ∈ occIdx (lowerL ex) (lowerL word) := by rw [hocc]; simp
  obtain ⟨hle, hpre⟩ := mem_occIdx.mp hi_mem
  have hfind0 : findFrom (lowerL ex) (lowerL word) 0 = some i := by
    unfold findFrom
    rw [hocc]
    simp [List.filter]
  have hfind1 : findFrom (lowerL ex) (lowerL word) (i + 1) = none := by
    unfold findFrom
    rw [hocc]
    simp [List.filter]
  have hlow : lowerL ((ex.drop i).take word.length) = lowerL word := by
    rw [lowerL_take, lowerL_drop]
    obtain ⟨t, ht⟩ := isPrefixOf_iff.mp hpre
    rw [ht, show word.length = (lowerL word).length from (lowerL_length word).symm,
      take_len]
  have horig_ne : (ex.drop i).take word.length ≠ [] := by
    intro h
    rw [h] at hlow
    exact wlne hlow.symm
  have horig_len : ((ex.drop i).take word.length).length = word.length := by
    have h2 := congrArg List.length hlow
    rw [lowerL_length, lowerL_length] at h2
    exact h2
  have hpre_i : ((ex.drop i).take word.length).isPrefixOf (ex.drop i) = true :=
    isPrefixOf_iff.mpr ⟨(ex.drop i).drop word.length, (List.take_append_drop _ _).symm⟩
  have huniq : ∀ j, j ≠ i →
      ((ex.drop i).take word.length).isPrefixOf (ex.drop j) = false := by
    intro j hj
    by_contra h
    rw [Bool.not_eq_false] at h
    have hmap := lowerL_isPrefixOf h
    rw [hlow, lowerL_drop] at hmap
    have hfalse := not_isPrefixOf_of_occIdx wlne hocc hj
    rw [hfalse] at hmap
    exact Bool.false_ne_true hmap
  have hrep := @pyReplace_unique_occ ex ((ex.drop i).take word.length)
    (boldOpen ++ (ex.drop i).take word.length ++ boldClose) i
    horig_ne hpre_i huniq
  show highlightAux word ex (lowerL ex) (lowerL word) (ex.length + 1 + 1) 0 ex = _
  have step1 : highlightAux word ex (lowerL ex) (lowerL word) (ex.length + 1 + 1) 0 ex
      = highlightAux word ex (lowerL ex) (lowerL word) (ex.length + 1) (i + 1)
          (pyReplace ex ((ex.drop i).take word.length)
            (boldOpen ++ (ex.drop i).take word.length ++ boldClose)) := by
    conv_lhs => rw [highlightAux]
    rw [hfind0]
  have step2 : highlightAux word ex (lowerL ex) (lowerL word) (ex.length + 1) (i + 1)
      (pyReplace ex ((ex.drop i).take word.length)
        (boldOpen ++ (ex.drop i).take word.length ++ boldClose))
      = pyReplace ex ((ex.drop i).take word.length)
        (boldOpen ++ (ex.drop i).take word.length ++ boldClose) := by
    conv_lhs => rw [highlightAux]
    rw [hfind1]
  rw [step1, step2, hrep, horig_len]
  simp [List.append_assoc]

/-! ## Lemmas about the distractor pools -/

theorem length_filter_partition (p : α → Bool) (l : List α) :
    (l.filter p).length + (l.filter (fun a => !(p a))).length = l.length := by
  induction l with
  | nil => rfl
  | cons x t ih =>
    by_cases h : p x = true
    · simp [List.filter_cons, h, ← ih]; omega
    · rw [Bool.not_eq_true] at h
      simp [List.filter_cons, h, ← ih]; omega

theorem filter_key_len_le_one {l : List QnaRecord} {a : String}
    (hn : (l.map (fun w => w.word)).Nodup) :
    (l.filter (fun w => w.word == a)).length ≤ 1 := by
  induction l with
  | nil => simp
  | cons x t ih =>
    rw [List.map_cons, List.nodup_cons] at hn
    obtain ⟨hx, hnt⟩ := hn
    by_cases hpx : (x.word == a) = true
    · simp only [List.filter_cons, hpx, if_true]
      have hnil : t.filter (fun w => w.word == a) = [] := by
        rw [List.filter_eq_nil_iff]
        intro y hy hya
        apply hx
        have : y.word = a := by simpa using hya
        have hxa : x.word = a := by simpa using hpx
        rw [hxa, ← this]
        exact List.mem_map.mpr ⟨y, hy, rfl⟩
      rw [hnil]
      simp
    · rw [Bool.not_eq_true] at hpx
      simp only [List.filter_cons, hpx, Bool.false_eq_true, if_false]
      exact ih hnt

theorem filter_ne_word_length {l : List QnaRecord} {t : QnaRecord}
    (hnodup : (l.map (fun w => w.word)).Nodup) :
    l.length ≤ (l.filter (fun w => w.word != t.word)).length + 1 := by
  have hpart := length_filter_partition (fun w => w.word != t.word) l
  have hcong : l.filter (fun w => !(w.word != t.word))
      = l.filter (fun w => w.word == t.word) := by
    apply List.filter_congr
    intro x _
    simp [bne]
  have hone := filter_key_len_le_one (a := t.word) hnodup
  rw [hcong] at hpart
  omega

theorem same_form_pool_eq (t : QnaRecord) (all_words : List QnaRecord) :
    same_form_pool t all_words
      = (all_words.filter (fun w => w.form == t.form)).filter
          (fun w => w.word != t.word) := by
  unfold same_form_pool
  rw [List.filter_filter]

theorem getD_lt {α : Type} {l : List α} {i : Nat} (h : i < l.length) (d : α) :
    l.getD i d = l.get ⟨i, h⟩ := by
  simp [List.getD_eq_getElem?_getD, List.getElem?_eq_getElem h]

/-- The pre-shuffle option list built from a pool of records whose words all
differ from the target's, with pairwise-distinct words: 4 pairwise-distinct
options, exactly one of which carries the target's word. -/
theorem options_spec {t : QnaRecord} {pool : List QnaRecord} {ids : List Nat}
    (hpw : ∀ w ∈ pool, w.word ≠ t.word)
    (hpn : (pool.map (fun w => w.word)).Nodup)
    (hids : sampleOK ids pool.length) :
    ((ids.map (fun i => pool.getD i default)) ++ [t]).length = 4 ∧
    ((ids.map (fun i => pool.getD i default)) ++ [t]).Nodup ∧
    (((ids.map (fun i => pool.getD i default)) ++ [t]).filter
        (fun w => w.word == t.word)).length = 1 := by
  obtain ⟨hlen, hnd, hbound⟩ := hids
  have hpool_nodup : pool.Nodup := hpn.of_map
  have hmem_pool : ∀ x ∈ ids.map (fun i => pool.getD i default), x ∈ pool := by
    intro x hx
    obtain ⟨i, hi, rfl⟩ := List.mem_map.mp hx
    rw [getD_lt (hbound i hi)]
    exact List.get_mem pool i _
  refine ⟨by simp [hlen], ?_, ?_⟩
  · rw [List.nodup_append]
    refine ⟨?_, by simp, ?_⟩
    · apply List.Nodup.map_on ?_ hnd
      intro x hx y hy hxy
      rw [getD_lt (hbound x hx), getD_lt (hbound y hy)] at hxy
      have := (List.Nodup.get_inj_iff hpool_nodup).mp hxy
      simpa using this
    · intro x hx hxt
      have hxp : x ∈ pool := hmem_pool x hx
      have : x = t := by simpa using hxt
      exact (hpw x hxp) (by rw [this])
  · rw [List.filter_append]
    have h1 : (ids.map (fun i => pool.getD i default)).filter
        (fun w => w.word == t.word) = [] := by
      rw [List.filter_eq_nil_iff]
      intro x hx hxw
      exact (hpw x (hmem_pool x hx)) (by simpa using hxw)
    rw [h1]
    simp

/-- **C4.**  The highlighter wraps the found case-insensitive occurrences of
the word in `<b>...</b>` using the original casing of the source text, with
plain substring matching (no word boundaries) and whole-string replacement of
the exact matched text.  Part 1: whenever the lowercased word has exactly one
occurrence inside the lowercased example, at index `i`, the output is the
example with the *original-cased* slice at `i` wrapped.  Part 2 (from the
spec's own test): for word `"run"`, the `"Run"` inside `"Running"` is also
bolded, with its original capital.  Part 3: replacement is a whole-string
replace, so occurrences of the same exact text elsewhere are wrapped
simultaneously (and can be re-wrapped by later iterations). -/
theorem highlight_word_spec :
    (∀ (word ex : String) (i : Nat),
        word.data ≠ [] →
        occIdx (lowerL ex.data) (lowerL word.data) = [i] →
        highlight_word word ex
          = ⟨ex.data.take i ++ boldOpen ++ (ex.data.drop i).take word.data.length
              ++ boldClose ++ ex.data.drop (i + word.data.length)⟩)
    ∧ highlight_word "run" "He will run home. Running is fun."
        = "He will <b>run</b> home. <b>Run</b>ning is fun."
    ∧ highlight_word "cat" "Cat cat Cat"
        = "<b><b>Cat</b></b> <b>cat</b> <b><b>Cat</b></b>" := by
  refine ⟨?_, by decide, by decide⟩
  intro word ex i hw hocc
  unfold highlight_word
  exact congrArg String.mk (highlightWordL_single hw hocc)

theorem highlight_word_spec_witness :
    highlight_word "run" "I Run fast."
      = ⟨("I Run fast." : String).data.take 2 ++ boldOpen
          ++ (("I Run fast." : String).data.drop 2).take ("run" : String).data.length
          ++ boldClose
          ++ ("I Run fast." : String).data.drop (2 + ("run" : String).data.length)⟩ :=
  highlight_word_spec.1 "run" "I Run fast." 2 (by decide) (by decide)

/-- **C1 (amended).**  For a dataset containing at least 4 records sharing the
target's form, where the records of that form carry pairwise-distinct words,
and a target of that form in the dataset, `create_multiple_choice` succeeds
and every shuffle of its result has exactly 4 pairwise-distinct records of
which exactly one carries the target's word.  (As originally stated — without
the distinct-words condition — the claim fails, see the counterexample:
records of the same form sharing the target's word shrink the pool below 3
and `random.sample` raises.) -/
theorem create_multiple_choice_four_distinct
    (t : QnaRecord) (all_words : List QnaRecord) (ids : List Nat)
    (hmem : t ∈ all_words)
    (hcount : 4 ≤ (all_words.filter (fun w => w.form == t.form)).length)
    (hnodup : ((all_words.filter (fun w => w.form == t.form)).map
        (fun w => w.word)).Nodup)
    (hids : sampleOK ids (selection_pool t all_words).length) :
    ∃ opts, create_multiple_choice t all_words ids = some opts ∧
      ∀ options : List QnaRecord, options.Perm opts →
        options.length = 4 ∧ options.Nodup ∧
        (options.filter (fun w => w.word == t.word)).length = 1 := by
  have htsf : t ∈ all_words.filter (fun w => w.form == t.form) :=
    List.mem_filter.mpr ⟨hmem, by simp⟩
  have hpool_len : 3 ≤ (same_form_pool t all_words).length := by
    rw [same_form_pool_eq]
    have := filter_ne_word_length (t := t) hnodup
    omega
  have hnf : needsFallback t all_words = false := by
    unfold needsFallback
    simp only [decide_eq_false_iff_not]
    omega
  have hsel : selection_pool t all_words = same_form_pool t all_words := by
    unfold selection_pool
    rw [hnf]
    simp
  have hpw : ∀ w ∈ same_form_pool t all_words, w.word ≠ t.word := by
    intro w hwmem
    unfold same_form_pool at hwmem
    have h2 := (List.mem_filter.mp hwmem).2
    have hb := ((Bool.and_eq_true _ _).mp h2).1
    simpa using hb
  have hpn : ((same_form_pool t all_words).map (fun w => w.word)).Nodup := by
    rw [same_form_pool_eq]
    exact List.Nodup.sublist (List.Sublist.map _ (List.filter_sublist _)) hnodup
  rw [hsel] at hids
  obtain ⟨hlen4, hnd4, hcnt1⟩ := options_spec hpw hpn hids
  refine ⟨(ids.map (fun i => (same_form_pool t all_words).getD i default)) ++ [t],
    ?_, ?_⟩
  · simp only [create_multiple_choice]
    rw [hsel, if_neg (by omega)]
  · intro options hperm
    refine ⟨by rw [hperm.length_eq]; exact hlen4, hperm.symm.nodup hnd4, ?_⟩
    rw [(hperm.filter _).length_eq]
    exact hcnt1

theorem create_multiple_choice_four_distinct_witness :
    ([⟨"b","f","m2","e2","u2"⟩, ⟨"c","f","m3","e3","u3"⟩,
      ⟨"d","f","m4","e4","u4"⟩, ⟨"x","f","m1","e1","u1"⟩] : List QnaRecord).length = 4
    ∧ ([⟨"b","f","m2","e2","u2"⟩, ⟨"c","f","m3","e3","u3"⟩,
        ⟨"d","f","m4","e4","u4"⟩, ⟨"x","f","m1","e1","u1"⟩] : List QnaRecord).Nodup
    ∧ (([⟨"b","f","m2","e2","u2"⟩, ⟨"c","f","m3","e3","u3"⟩,
         ⟨"d","f","m4","e4","u4"⟩, ⟨"x","f","m1","e1","u1"⟩] : List QnaRecord).filter
        (fun w => w.word == (⟨"x","f","m1","e1","u1"⟩ : QnaRecord).word)).length = 1 := by
  obtain ⟨opts, hsome, hall⟩ := create_multiple_choice_four_distinct
    ⟨"x","f","m1","e1","u1"⟩
    [⟨"x","f","m1","e1","u1"⟩, ⟨"b","f","m2","e2","u2"⟩,
     ⟨"c","f","m3","e3","u3"⟩, ⟨"d","f","m4","e4","u4"⟩] [0, 1, 2]
    (by decide) (by decide) (by decide) (by decide)
  have hval : create_multiple_choice ⟨"x","f","m1","e1","u1"⟩
      [⟨"x","f","m1","e1","u1"⟩, ⟨"b","f","m2","e2","u2"⟩,
       ⟨"c","f","m3","e3","u3"⟩, ⟨"d","f","m4","e4","u4"⟩] [0, 1, 2]
      = some [⟨"b","f","m2","e2","u2"⟩, ⟨"c","f","m3","e3","u3"⟩,
              ⟨"d","f","m4","e4","u4"⟩, ⟨"x","f","m1","e1","u1"⟩] := by decide
  rw [hval] at hsome
  have hopts := Option.some.inj hsome
  exact hall _ (by rw [hopts])

/-- **C1, counterexample to the claim as stated.**  A dataset of 4 records all
sharing form `"f"`, with a target of that form in the dataset, on which
`create_multiple_choice` does not return an option set at all: a second record
carries the target's word, so both the same-form pool and the relaxed pool
have only 2 members and `random.sample` raises (modelled as `none`; the
sample-validity predicate is unsatisfiable on a pool of length 2). -/
theorem create_multiple_choice_shared_word_cex :
    (⟨"x","f","m1","e1","u1"⟩ : QnaRecord) ∈
      ([⟨"x","f","m1","e1","u1"⟩, ⟨"x","f","m2","e2","u2"⟩,
        ⟨"b","f","m3","e3","u3"⟩, ⟨"c","f","m4","e4","u4"⟩] : List QnaRecord)
    ∧ 4 ≤ (([⟨"x","f","m1","e1","u1"⟩, ⟨"x","f","m2","e2","u2"⟩,
        ⟨"b","f","m3","e3","u3"⟩, ⟨"c","f","m4","e4","u4"⟩] : List QnaRecord).filter
          (fun w => w.form == (⟨"x","f","m1","e1","u1"⟩ : QnaRecord).form)).length
    ∧ (fallback_pool ⟨"x","f","m1","e1","u1"⟩
        [⟨"x","f","m1","e1","u1"⟩, ⟨"x","f","m2","e2","u2"⟩,
         ⟨"b","f","m3","e3","u3"⟩, ⟨"c","f","m4","e4","u4"⟩]).length = 2
    ∧ create_multiple_choice ⟨"x","f","m1","e1","u1"⟩
        [⟨"x","f","m1","e1","u1"⟩, ⟨"x","f","m2","e2","u2"⟩,
         ⟨"b","f","m3","e3","u3"⟩, ⟨"c","f","m4","e4","u4"⟩] [0,1,2] = none := by
  decide

/-- **C2 (amended).**  For a target in the dataset whose form is shared by
fewer than 3 other records, where the dataset has at least 4 records with
pairwise-distinct words, `create_multiple_choice` prints the warning (the
fallback flag is set), relaxes the pool to all records with a different word
regardless of form, and still returns 4 pairwise-distinct records under every
shuffle.  (As originally stated — without distinct words — the claim fails:
duplicate records can be sampled at distinct indices, see the
counterexample.) -/
theorem create_multiple_choice_fallback_spec
    (t : QnaRecord) (all_words : List QnaRecord) (ids : List Nat)
    (_hmem : t ∈ all_words)
    (hnodup : (all_words.map (fun w => w.word)).Nodup)
    (hlen : 4 ≤ all_words.length)
    (hfew : (same_form_pool t all_words).length < 3)
    (hids : sampleOK ids (selection_pool t all_words).length) :
    needsFallback t all_words = true ∧
    selection_pool t all_words = all_words.filter (fun w => w.word != t.word) ∧
    ∃ opts, create_multiple_choice t all_words ids = some opts ∧
      ∀ options : List QnaRecord, options.Perm opts →
        options.length = 4 ∧ options.Nodup := by
  have hnf : needsFallback t all_words = true := by
    unfold needsFallback
    simpa using hfew
  have hsel : selection_pool t all_words = fallback_pool t all_words := by
    unfold selection_pool
    rw [hnf]
    simp
  have hpool_len : 3 ≤ (fallback_pool t all_words).length := by
    unfold fallback_pool
    have := filter_ne_word_length (t := t) hnodup
    omega
  have hpw : ∀ w ∈ fallback_pool t all_words, w.word ≠ t.word := by
    intro w hwmem
    unfold fallback_pool at hwmem
    have h2 := (List.mem_filter.mp hwmem).2
    simpa using h2
  have hpn : ((fallback_pool t all_words).map (fun w => w.word)).Nodup := by
    unfold fallback_pool
    exact List.Nodup.sublist (List.Sublist.map _ (List.filter_sublist _)) hnodup
  rw [hsel] at hids
  obtain ⟨hlen4, hnd4, _⟩ := options_spec hpw hpn hids
  refine ⟨hnf, hsel, (ids.map (fun i => (fallback_pool t all_words).getD i default))
    ++ [t], ?_, ?_⟩
  · simp only [create_multiple_choice]
    rw [hsel, if_neg (by omega)]
  · intro options hperm
    exact ⟨by rw [hperm.length_eq]; exact hlen4, hperm.symm.nodup hnd4⟩

theorem create_multiple_choice_fallback_spec_witness :
    needsFallback ⟨"x","f","m1","e1","u1"⟩
      [⟨"x","f","m1","e1","u1"⟩, ⟨"a","g","m2","e2","u2"⟩,
       ⟨"b","g","m3","e3","u3"⟩, ⟨"c","g","m4","e4","u4"⟩] = true
    ∧ selection_pool ⟨"x","f","m1","e1","u1"⟩
        [⟨"x","f","m1","e1","u1"⟩, ⟨"a","g","m2","e2","u2"⟩,
         ⟨"b","g","m3","e3","u3"⟩, ⟨"c","g","m4","e4","u4"⟩]
        = ([⟨"x","f","m1","e1","u1"⟩, ⟨"a","g","m2","e2","u2"⟩,
            ⟨"b","g","m3","e3","u3"⟩, ⟨"c","g","m4","e4","u4"⟩] : List QnaRecord).filter
            (fun w => w.word != (⟨"x","f","m1","e1","u1"⟩ : QnaRecord).word)
    ∧ ([⟨"a","g","m2","e2","u2"⟩, ⟨"b","g","m3","e3","u3"⟩,
        ⟨"c","g","m4","e4","u4"⟩, ⟨"x","f","m1","e1","u1"⟩] : List QnaRecord).length = 4
    ∧ ([⟨"a","g","m2","e2","u2"⟩, ⟨"b","g","m3","e3","u3"⟩,
        ⟨"c","g","m4","e4","u4"⟩, ⟨"x","f","m1","e1","u1"⟩] : List QnaRecord).Nodup := by
  obtain ⟨hnf, hsel, opts, hsome, hall⟩ := create_multiple_choice_fallback_spec
    ⟨"x","f","m1","e1","u1"⟩
    [⟨"x","f","m1","e1","u1"⟩, ⟨"a","g","m2","e2","u2"⟩,
     ⟨"b","g","m3","e3","u3"⟩, ⟨"c","g","m4","e4","u4"⟩] [0, 1, 2]
    (by decide) (by decide) (by decide) (by decide) (by decide)
  have hval : create_multiple_choice ⟨"x","f","m1","e1","u1"⟩
      [⟨"x","f","m1","e1","u1"⟩, ⟨"a","g","m2","e2","u2"⟩,
       ⟨"b","g","m3","e3","u3"⟩, ⟨"c","g","m4","e4","u4"⟩] [0, 1, 2]
      = some [⟨"a","g","m2","e2","u2"⟩, ⟨"b","g","m3","e3","u3"⟩,
              ⟨"c","g","m4","e4","u4"⟩, ⟨"x","f","m1","e1","u1"⟩] := by decide
  rw [hval] at hsome
  have hopts := Option.some.inj hsome
  exact ⟨hnf, hsel, hall _ (by rw [hopts])⟩

/-- **C2, counterexample to the claim as stated.**  A dataset of 4 records in
which the 3 non-target records are identical: the target's form has no peers,
the fallback is taken, the dataset has 4 records, the sample `[0, 1, 2]` is a
valid draw from the relaxed pool of length 3 — yet the returned option set
holds the same record three times, so its 4 records are not pairwise
distinct. -/
theorem create_multiple_choice_fallback_dup_cex :
    needsFallback ⟨"x","f","m1","e1","u1"⟩
      [⟨"x","f","m1","e1","u1"⟩, ⟨"a","g","m","e","u"⟩,
       ⟨"a","g","m","e","u"⟩, ⟨"a","g","m","e","u"⟩] = true
    ∧ 4 ≤ ([⟨"x","f","m1","e1","u1"⟩, ⟨"a","g","m","e","u"⟩,
        ⟨"a","g","m","e","u"⟩, ⟨"a","g","m","e","u"⟩] : List QnaRecord).length
    ∧ (same_form_pool ⟨"x","f","m1","e1","u1"⟩
        [⟨"x","f","m1","e1","u1"⟩, ⟨"a","g","m","e","u"⟩,
         ⟨"a","g","m","e","u"⟩, ⟨"a","g","m","e","u"⟩]).length < 3
    ∧ sampleOK [0, 1, 2] (selection_pool ⟨"x","f","m1","e1","u1"⟩
        [⟨"x","f","m1","e1","u1"⟩, ⟨"a","g","m","e","u"⟩,
         ⟨"a","g","m","e","u"⟩, ⟨"a","g","m","e","u"⟩]).length
    ∧ create_multiple_choice ⟨"x","f","m1","e1","u1"⟩
        [⟨"x","f","m1","e1","u1"⟩, ⟨"a","g","m","e","u"⟩,
         ⟨"a","g","m","e","u"⟩, ⟨"a","g","m","e","u"⟩] [0, 1, 2]
        = some [⟨"a","g","m","e","u"⟩, ⟨"a","g","m","e","u"⟩,
                ⟨"a","g","m","e","u"⟩, ⟨"x","f","m1","e1","u1"⟩]
    ∧ ¬ ([⟨"a","g","m","e","u"⟩, ⟨"a","g","m","e","u"⟩,
          ⟨"a","g","m","e","u"⟩, ⟨"x","f","m1","e1","u1"⟩] : List QnaRecord).Nodup := by
  decide

/-- **C3.**  When the dataset holds fewer than 4 records (and the target is
one of them, so fewer than 3 other records exist), `create_multiple_choice`
fails — `random.sample` raises `ValueError`, modelled as `none` — for every
sample outcome; equivalently, a dataset of at least 4 records is a
precondition for selection to succeed. -/
theorem create_multiple_choice_small_dataset_none
    (t : QnaRecord) (all_words : List QnaRecord)
    (hmem : t ∈ all_words) (hlen : all_words.length < 4) (ids : List Nat) :
    create_multiple_choice t all_words ids = none := by
  have hmem1 : t ∈ all_words.filter (fun w => !(w.word != t.word)) :=
    List.mem_filter.mpr ⟨hmem, by simp⟩
  have h1 : 0 < (all_words.filter (fun w => !(w.word != t.word))).length :=
    List.length_pos_of_mem hmem1
  have hpart := length_filter_partition (fun w => w.word != t.word) all_words
  have hfb : (fallback_pool t all_words).length < 3 := by
    unfold fallback_pool
    omega
  have hsf : (same_form_pool t all_words).length < 3 := by
    have hsub : (same_form_pool t all_words).length
        ≤ (fallback_pool t all_words).length := by
      unfold same_form_pool fallback_pool
      exact List.Sublist.length_le
        (List.monotone_filter_right _ (fun a ha => ((Bool.and_eq_true _ _).mp ha).1))
    omega
  have hnf : needsFallback t all_words = true := by
    unfold needsFallback
    simpa using hsf
  simp only [create_multiple_choice]
  unfold selection_pool
  rw [hnf]
  simp only [if_true]
  rw [if_pos hfb]

theorem create_multiple_choice_small_dataset_none_witness :
    create_multiple_choice ⟨"x","f","m1","e1","u1"⟩
      [⟨"x","f","m1","e1","u1"⟩, ⟨"b","f","m2","e2","u2"⟩,
       ⟨"c","f","m3","e3","u3"⟩] [0, 1, 2] = none :=
  create_multiple_choice_small_dataset_none ⟨"x","f","m1","e1","u1"⟩
    [⟨"x","f","m1","e1","u1"⟩, ⟨"b","f","m2","e2","u2"⟩,
     ⟨"c","f","m3","e3","u3"⟩] (by decide) (by decide) [0, 1, 2]

/-! ## Lemmas about the vocab parser -/

theorem replicate_getD : ∀ (k n : Nat),
    (List.replicate k ("" : String)).getD n "" = "" := by
  intro k
  induction k with
  | zero => intro n; simp
  | succ k ih =>
    intro n
    cases n with
    | zero => rfl
    | succ n => simp [List.replicate, ih n]

theorem getD_append_replicate (row : List String) (k : Nat) :
    ∀ n, (row ++ List.replicate k "").getD n "" = row.getD n "" := by
  induction row with
  | nil => intro n; simp [replicate_getD]
  | cons x t ih =>
    intro n
    cases n with
    | zero => rfl
    | succ n => simpa using ih n

theorem foldl_max_init (rows : List (List String)) :
    ∀ init : Nat, init ≤ rows.foldl (fun m r => max m r.length) init := by
  induction rows with
  | nil => intro init; simp
  | cons r t ih =>
    intro init
    exact Nat.le_trans (Nat.le_max_left init r.length) (ih (max init r.length))

theorem le_maxFields {rows : List (List String)} {row : List String}
    (h : row ∈ rows) : row.length ≤ maxFields rows := by
  unfold maxFields
  suffices hgen : ∀ init : Nat,
      row.length ≤ rows.foldl (fun m r => max m r.length) init from hgen 0
  induction rows with
  | nil => exact absurd h (List.not_mem_nil row)
  | cons r t ih =>
    intro init
    rcases List.mem_cons.mp h with hr | ht
    · subst hr
      exact Nat.le_trans (Nat.le_max_right init row.length)
        (foldl_max_init t (max init row.length))
    · exact ih ht (max init r.length)

theorem vocabRecordOfRow_eq (m : Nat) (row : List String) (h2 : 2 ≤ row.length) :
    vocabRecordOfRow m row
      = { word := row.getD 0 "", meaning := row.getD 1 "",
          examples := row.drop 2 ++ List.replicate (m - row.length) "" } := by
  unfold vocabRecordOfRow
  show VocabRecord.mk ((row ++ List.replicate (m - row.length) "").getD 0 "")
      ((row ++ List.replicate (m - row.length) "").getD 1 "")
      ((row ++ List.replicate (m - row.length) "").drop 2) = _
  rw [getD_append_replicate, getD_append_replicate, List.drop_append_eq_append_drop,
    show 2 - row.length = 0 from by omega, List.drop_zero]

/-- **C7 (amended).**  Every input line with at least 2 non-empty
`|`-separated fields yields exactly one row, and the corresponding record has
field 0 (trimmed) as word, field 1 (trimmed) as meaning, and as examples all
remaining fields in their original order *followed by empty-string padding up
to the file's maximum field count* (the `fillna('')` padding of the tabular
representation).  (As originally stated — examples being exactly the
remaining fields — the claim fails whenever another line of the file has more
fields, see the counterexample.) -/
theorem convert_csv_line_record
    (lines : List String) (line : String)
    (hmem : line ∈ lines)
    (hfields : 2 ≤ ((vocab_fields line).filter (fun f => f != "")).length) :
    parse_vocab_line line = some (vocab_fields line) ∧
    ∃ recs, convert_csv_to_anki lines = some recs ∧
      recs.length = (lines.filterMap parse_vocab_line).length ∧
      ∀ i, ∀ h : i < (lines.filterMap parse_vocab_line).length,
        (lines.filterMap parse_vocab_line).get ⟨i, h⟩ = vocab_fields line →
        recs.getD i default
          = { word := (vocab_fields line).getD 0 "",
              meaning := (vocab_fields line).getD 1 "",
              examples := (vocab_fields line).drop 2
                ++ List.replicate (maxFields (lines.filterMap parse_vocab_line)
                    - (vocab_fields line).length) "" } := by
  have hne : ¬ ((vocab_fields line).all (fun f => f == "") = true) := by
    intro hall
    rw [List.all_eq_true] at hall
    have hnil : (vocab_fields line).filter (fun f => f != "") = [] := by
      rw [List.filter_eq_nil_iff]
      intro x hx
      have : x = "" := by simpa using hall x hx
      simp [this]
    rw [hnil] at hfields
    simp at hfields
  have hparse : parse_vocab_line line = some (vocab_fields line) := by
    unfold parse_vocab_line
    rw [if_neg hne]
  have hrowmem : vocab_fields line ∈ lines.filterMap parse_vocab_line :=
    List.mem_filterMap.mpr ⟨line, hmem, hparse⟩
  have hflen : 2 ≤ (vocab_fields line).length :=
    Nat.le_trans hfields (List.length_filter_le _ _)
  have hm2 : 2 ≤ maxFields (lines.filterMap parse_vocab_line) :=
    Nat.le_trans hflen (le_maxFields hrowmem)
  have hrows_ne : (lines.filterMap parse_vocab_line).isEmpty = false := by
    rw [List.isEmpty_eq_false_iff_exists_mem]
    exact ⟨vocab_fields line, hrowmem⟩
  refine ⟨hparse, (lines.filterMap parse_vocab_line).map
    (vocabRecordOfRow (maxFields (lines.filterMap parse_vocab_line))), ?_, ?_, ?_⟩
  · show (if (lines.filterMap parse_vocab_line).isEmpty = true then none
        else if maxFields (lines.filterMap parse_vocab_line) < 2 then none
        else some ((lines.filterMap parse_vocab_line).map
          (vocabRecordOfRow (maxFields (lines.filterMap parse_vocab_line)))))
        = some ((lines.filterMap parse_vocab_line).map
          (vocabRecordOfRow (maxFields (lines.filterMap parse_vocab_line))))
    rw [hrows_ne]
    simp only [Bool.false_eq_true, if_false]
    rw [if_neg (by omega)]
  · simp
  · intro i h hrow
    have hlt : i < ((lines.filterMap parse_vocab_line).map
        (vocabRecordOfRow (maxFields (lines.filterMap parse_vocab_line)))).length := by
      simpa using h
    rw [getD_lt hlt]
    rw [List.get_map]
    rw [hrow]
    exact vocabRecordOfRow_eq _ _ hflen

theorem convert_csv_line_record_witness :
    parse_vocab_line "a|b|c" = some (vocab_fields "a|b|c") :=
  (convert_csv_line_record ["a|b|c"] "a|b|c" (by decide) (by decide)).1

/-- **C7, counterexample to the claim as stated.**  In a two-line file whose
second line has one more field, the record of the first line has examples
`["c", ""]` — the remaining field plus one empty-string pad — not exactly the
remaining fields `["c"]`. -/
theorem convert_csv_padding_cex :
    convert_csv_to_anki ["a|b|c", "x|y|z|w"]
      = some [{ word := "a", meaning := "b", examples := ["c", ""] },
              { word := "x", meaning := "y", examples := ["z", "w"] }]
    ∧ (["c", ""] : List String) ≠ (vocab_fields "a|b|c").drop 2 := by
  decide

/-- **C8.**  Every record the vocab parser produces has its word and meaning
fields present — equal to fields 0 and 1 of its (possibly short) source row,
with `getD`'s empty-string default standing for the padding — and its padded
field count is uniformly the file's maximum, so no record lacks a word or
meaning slot; the examples sequence may be empty, as the one-record run on
`"a|b"` shows. -/
theorem vocab_record_fields_present :
    (∀ (lines : List String) (recs : List VocabRecord),
        convert_csv_to_anki lines = some recs →
        ∀ r ∈ recs, ∃ row ∈ lines.filterMap parse_vocab_line,
          r.word = row.getD 0 "" ∧ r.meaning = row.getD 1 "" ∧
          2 + r.examples.length = maxFields (lines.filterMap parse_vocab_line))
    ∧ convert_csv_to_anki ["a|b"]
        = some [{ word := "a", meaning := "b", examples := [] }] := by
  refine ⟨?_, by decide⟩
  intro lines recs hsome r hr
  simp only [convert_csv_to_anki] at hsome
  split at hsome
  · exact absurd hsome (by simp)
  · split at hsome
    · exact absurd hsome (by simp)
    · rename_i hne hm
      have hrecs := Option.some.inj hsome
      rw [← hrecs] at hr
      obtain ⟨row, hrowmem, hfr⟩ := List.mem_map.mp hr
      refine ⟨row, hrowmem, ?_, ?_, ?_⟩
      · rw [← hfr]
        exact getD_append_replicate row _ 0
      · rw [← hfr]
        exact getD_append_replicate row _ 1
      · rw [← hfr]
        have hrowle := le_maxFields hrowmem
        show 2 + ((row ++ List.replicate
            (maxFields (lines.filterMap parse_vocab_line) - row.length) "").drop 2).length
          = maxFields (lines.filterMap parse_vocab_line)
        rw [List.length_drop, List.length_append, List.length_replicate]
        omega

theorem vocab_record_fields_present_witness :
    ((⟨"x", "y", ["z"]⟩ : VocabRecord)).word
        = (["x", "y", "z"] : List String).getD 0 ""
    ∧ ((⟨"x", "y", ["z"]⟩ : VocabRecord)).meaning
        = (["x", "y", "z"] : List String).getD 1 ""
    ∧ 2 + ((⟨"x", "y", ["z"]⟩ : VocabRecord)).examples.length
        = maxFields (["x|y|z"].filterMap parse_vocab_line) := by
  obtain ⟨row, hrowmem, h1, h2, h3⟩ := vocab_record_fields_present.1 ["x|y|z"]
    [⟨"x", "y", ["z"]⟩] (by decide) ⟨"x", "y", ["z"]⟩ (by decide)
  have hrow : row = ["x", "y", "z"] := by
    have hrows : ["x|y|z"].filterMap parse_vocab_line = [["x", "y", "z"]] := by decide
    rw [hrows] at hrowmem
    simpa using hrowmem
  subst hrow
  exact ⟨h1, h2, h3⟩

/-- **C9.**  Every record the quiz-pipeline reader produces comes from a line
with exactly 3 `|`-separated fields whose second field splits in two on the
first `". "`; a line with a different field count, or whose second field has
no `". "` separator, produces no record (it is warned about and skipped); and
skipping a malformed line leaves the records of the remaining lines
unchanged, so processing continues. -/
theorem read_magoosh_words_shape :
    (∀ (lines : List String) (r : QnaRecord), r ∈ read_magoosh_words lines →
      ∃ line, line ∈ lines ∧ ∃ w d ex form meaning,
        pySplit (pyStrip line.data) "|".data = [w, d, ex] ∧
        splitOnFirstL d ". ".data = [form, meaning] ∧
        read_magoosh_line line = some r)
    ∧ (∀ line : String, (pySplit (pyStrip line.data) "|".data).length ≠ 3 →
        read_magoosh_line line = none)
    ∧ (∀ (line : String) (w d ex : List Char),
        pySplit (pyStrip line.data) "|".data = [w, d, ex] →
        (splitOnFirstL d ". ".data).length ≠ 2 →
        read_magoosh_line line = none)
    ∧ (∀ (line : String) (lines : List String), read_magoosh_line line = none →
        read_magoosh_words (line :: lines) = read_magoosh_words lines) := by
  refine ⟨?_, ?_, ?_, ?_⟩
  · intro lines r hr
    obtain ⟨line, hline, hsome⟩ := List.mem_filterMap.mp hr
    refine ⟨line, hline, ?_⟩
    have hsome' := hsome
    unfold read_magoosh_line at hsome
    split at hsome
    · rename_i w d ex hsplit
      split at hsome
      · rename_i form meaning hdef
        exact ⟨w, d, ex, form, meaning, hsplit, hdef, hsome'⟩
      · simp at hsome
    · simp at hsome
  · intro line hlen
    unfold read_magoosh_line
    generalize hsp : pySplit (pyStrip line.data) "|".data = parts
    rw [hsp] at hlen
    rcases parts with _ | ⟨w, _ | ⟨d, _ | ⟨ex, _ | ⟨e4, rest⟩⟩⟩⟩
    · rfl
    · rfl
    · rfl
    · exact absurd rfl hlen
    · rfl
  · intro line w d ex hsplit hdef
    have hred : read_magoosh_line line
        = (match splitOnFirstL d ". ".data with
           | [form, meaning] =>
             some ⟨⟨w⟩, ⟨form⟩, ⟨meaning⟩,
               (extract_usage ⟨ex⟩).2, (extract_usage ⟨ex⟩).1⟩
           | _ => none) := by
      unfold read_magoosh_line
      rw [hsplit]
    rw [hred]
    generalize hdf : splitOnFirstL d ". ".data = dparts
    rw [hdf] at hdef
    rcases dparts with _ | ⟨f1, _ | ⟨f2, _ | ⟨f3, rest⟩⟩⟩
    · rfl
    · rfl
    · exact absurd rfl hdef
    · rfl
  · intro line lines hnone
    unfold read_magoosh_words
    simp [List.filterMap_cons, hnone]

theorem read_magoosh_words_shape_witness :
    read_magoosh_words
        ["bad line", "apple|n. a fruit|I ate an <strong>apple</strong>."]
      = read_magoosh_words ["apple|n. a fruit|I ate an <strong>apple</strong>."] :=
  read_magoosh_words_shape.2.2.2 "bad line"
    ["apple|n. a fruit|I ate an <strong>apple</strong>."] (by decide)
